import Mathlib

/-!
# Verification of the ferguson asset-manager core

A shallow embedding of `lib/assets.js` (the evolved `Manager` variant) and the
parts of `lib/utils.js` it relies on.  JavaScript objects used as string-keyed
dictionaries are embedded as association lists (`List (String × α)`) so that
insertion order — which JS `for … in` iteration follows for non-numeric keys —
is preserved.  External collaborators (the `minimatch` glob matcher, the
crypto hash wrapped by `utils.hashString`, compiler / compressor / tag-format
plugins) are held abstract as function parameters, exactly as the manager
treats them.  Node's `path` module is modelled for POSIX paths without
trailing separators and without `.` / `..` segments, the only inputs the
manager ever feeds it.
-/

namespace Ferguson

/-! ## Association lists (JS object model) -/

/-- First binding for a key, like a JS property read `obj[k]`. -/
def alistFind? {α : Type} (m : List (String × α)) (k : String) : Option α :=
  match m with
  | [] => none
  | (k', v) :: rest => if k' = k then some v else alistFind? rest k

/-- JS `k in obj`. -/
def alistContains {α : Type} (m : List (String × α)) (k : String) : Bool :=
  (alistFind? m k).isSome

/-- Replace every binding of `k` (JS keys are unique, so at most one). -/
def alistReplace {α : Type} (k : String) (v : α) : List (String × α) → List (String × α)
  | [] => []
  | (k', v') :: rest =>
    if k' = k then (k, v) :: alistReplace k v rest
    else (k', v') :: alistReplace k v rest

/-- JS property write `obj[k] = v`: replaces in place when the key exists,
appends otherwise (JS objects keep the original insertion position). -/
def alistInsert {α : Type} (m : List (String × α)) (k : String) (v : α) :
    List (String × α) :=
  if alistContains m k then alistReplace k v m
  else m ++ [(k, v)]

/-- JS `delete obj[k]`. -/
def alistErase {α : Type} (m : List (String × α)) (k : String) :
    List (String × α) :=
  m.filter (fun p => p.1 ≠ k)

/-- Keys in iteration order. -/
def alistKeys {α : Type} (m : List (String × α)) : List String :=
  m.map (·.1)

theorem alistFind?_replace_self {α : Type} (m : List (String × α)) (k : String) (v : α) :
    alistFind? (alistReplace k v m) k =
      if alistContains m k then some v else none := by
  induction m with
  | nil => simp [alistReplace, alistFind?, alistContains]
  | cons p rest ih =>
    obtain ⟨a, b⟩ := p
    by_cases ha : a = k
    · subst ha
      simp [alistReplace, alistFind?, alistContains]
    · simpa [alistReplace, alistFind?, alistContains, ha] using ih

theorem alistFind?_replace_ne {α : Type} (m : List (String × α)) (k k' : String) (v : α)
    (h : k' ≠ k) :
    alistFind? (alistReplace k v m) k' = alistFind? m k' := by
  induction m with
  | nil => simp [alistReplace]
  | cons p rest ih =>
    obtain ⟨a, b⟩ := p
    by_cases ha : a = k
    · subst ha
      simp [alistReplace, alistFind?, Ne.symm h, ih]
    · by_cases ha' : a = k'
      · subst ha'
        simp [alistReplace, alistFind?, ha, ih]
      · simp [alistReplace, alistFind?, ha, ha', ih]

theorem alistFind?_append_single_self {α : Type} (m : List (String × α)) (k : String) (v : α)
    (h : alistContains m k = false) :
    alistFind? (m ++ [(k, v)]) k = some v := by
  induction m with
  | nil => simp [alistFind?]
  | cons p rest ih =>
    obtain ⟨a, b⟩ := p
    by_cases ha : a = k
    · subst ha
      simp [alistContains, alistFind?] at h
    · have hrest : alistContains rest k = false := by
        simpa [alistContains, alistFind?, ha] using h
      simpa [alistFind?, ha] using ih hrest

theorem alistFind?_append_single_ne {α : Type} (m : List (String × α)) (k k' : String) (v : α)
    (h : k' ≠ k) :
    alistFind? (m ++ [(k, v)]) k' = alistFind? m k' := by
  induction m with
  | nil => simp [alistFind?, Ne.symm h]
  | cons p rest ih =>
    obtain ⟨a, b⟩ := p
    by_cases ha : a = k'
    · subst ha
      simp [alistFind?]
    · simpa [alistFind?, ha] using ih

theorem alistFind?_insert_self {α : Type} (m : List (String × α)) (k : String) (v : α) :
    alistFind? (alistInsert m k v) k = some v := by
  unfold alistInsert
  by_cases h : alistContains m k = true
  · simp [h, alistFind?_replace_self]
  · have h' : alistContains m k = false := by
      simpa using h
    simp [h', alistFind?_append_single_self m k v h']

theorem alistFind?_insert_ne {α : Type} (m : List (String × α)) (k k' : String) (v : α)
    (h : k' ≠ k) : alistFind? (alistInsert m k v) k' = alistFind? m k' := by
  unfold alistInsert
  by_cases hc : alistContains m k = true
  · simp [hc, alistFind?_replace_ne m k k' v h]
  · simp [hc, alistFind?_append_single_ne m k k' v h]

theorem alistFind?_erase_self {α : Type} (m : List (String × α)) (k : String) :
    alistFind? (alistErase m k) k = none := by
  induction m with
  | nil => simp [alistErase, alistFind?]
  | cons p rest ih =>
    obtain ⟨a, b⟩ := p
    by_cases ha : a = k
    · subst ha
      simpa [alistErase, alistFind?] using ih
    · simpa [alistErase, alistFind?, ha] using ih

theorem alistFind?_erase_ne {α : Type} (m : List (String × α)) (k k' : String)
    (h : k' ≠ k) : alistFind? (alistErase m k) k' = alistFind? m k' := by
  induction m with
  | nil => simp [alistErase, alistFind?]
  | cons p rest ih =>
    obtain ⟨a, b⟩ := p
    by_cases ha : a = k
    · subst ha
      simpa [alistErase, alistFind?, Ne.symm h] using ih
    · by_cases ha' : a = k'
      · subst ha'
        simp [alistErase, alistFind?, ha]
      · simpa [alistErase, alistFind?, ha, ha'] using ih

theorem alistFind?_isSome_of_mem {α : Type} (m : List (String × α)) (p : String × α)
    (h : p ∈ m) : (alistFind? m p.1).isSome = true := by
  induction m with
  | nil => simp at h
  | cons q rest ih =>
    obtain ⟨a, b⟩ := q
    by_cases ha : a = p.1
    · simp [alistFind?, ha]
    · rcases List.mem_cons.mp h with h1 | h1
      · exact absurd (congrArg Prod.fst h1).symm ha
      · simpa [alistFind?, ha] using ih h1

/-! ## Character-level split and join

`String.prototype.split(sep)` / `Array.prototype.join(sep)` for a single
separator character, on `List Char`, so that the filename-pattern claims can
be proved by induction. -/

/-- JS `str.split(c)`: always returns at least one (possibly empty) piece. -/
def splitChar (c : Char) : List Char → List (List Char)
  | [] => [[]]
  | x :: xs =>
    let r := splitChar c xs
    if x = c then [] :: r
    else
      match r with
      | [] => [[x]]
      | y :: ys => (x :: y) :: ys

/-- JS `parts.join(c)`. -/
def joinChar (c : Char) : List (List Char) → List Char
  | [] => []
  | [p] => p
  | p :: ps => p ++ c :: joinChar c ps

theorem splitChar_cons_eq (c : Char) (xs : List Char) :
    splitChar c (c :: xs) = [] :: splitChar c xs := by
  simp [splitChar]

theorem splitChar_cons_ne (c x : Char) (xs : List Char) (hx : x ≠ c) :
    splitChar c (x :: xs) =
      match splitChar c xs with
      | [] => [[x]]
      | y :: ys => (x :: y) :: ys := by
  simp [splitChar, hx]

theorem splitChar_ne_nil (c : Char) (l : List Char) : splitChar c l ≠ [] := by
  cases l with
  | nil => simp [splitChar]
  | cons x xs =>
    by_cases hx : x = c
    · subst hx; rw [splitChar_cons_eq]; simp
    · rw [splitChar_cons_ne c x xs hx]
      cases splitChar c xs with
      | nil => simp
      | cons y ys => simp

/-- Splitting a list that does not contain the separator yields the single
piece. -/
theorem splitChar_of_not_contains (c : Char) (l : List Char) (h : c ∉ l) :
    splitChar c l = [l] := by
  induction l with
  | nil => rfl
  | cons x xs ih =>
    have hx : x ≠ c := fun hh => h (hh ▸ List.mem_cons_self x xs)
    have hxs : c ∉ xs := fun hh => h (List.mem_cons_of_mem x hh)
    rw [splitChar_cons_ne c x xs hx, ih hxs]

/-- Splitting at an explicit separator occurrence after a separator-free
chunk peels off exactly that chunk. -/
theorem splitChar_append (c : Char) (a b : List Char) (h : c ∉ a) :
    splitChar c (a ++ c :: b) = a :: splitChar c b := by
  induction a with
  | nil => simp [splitChar_cons_eq]
  | cons x xs ih =>
    have hx : x ≠ c := fun hh => h (hh ▸ List.mem_cons_self x xs)
    have hxs : c ∉ xs := fun hh => h (List.mem_cons_of_mem x hh)
    rw [List.cons_append, splitChar_cons_ne c x _ hx, ih hxs]

theorem joinChar_splitChar (c : Char) (l : List Char) :
    joinChar c (splitChar c l) = l := by
  induction l with
  | nil => rfl
  | cons x xs ih =>
    by_cases hx : x = c
    · subst hx
      rw [splitChar_cons_eq]
      cases hs : splitChar x xs with
      | nil => exact absurd hs (splitChar_ne_nil x xs)
      | cons y ys =>
        rw [hs] at ih
        simpa [joinChar] using ih
    · rw [splitChar_cons_ne c x xs hx]
      cases hs : splitChar c xs with
      | nil => exact absurd hs (splitChar_ne_nil c xs)
      | cons y ys =>
        rw [hs] at ih
        cases ys with
        | nil => simpa [joinChar] using congrArg (x :: ·) ih
        | cons z zs => simpa [joinChar] using congrArg (x :: ·) ih

/-! ## String primitives

Structural-recursion equivalents of the JS string operations used by the
manager, so that every embedded operation evaluates inside the kernel. -/

/-- ASCII lowercasing of one character, as `String.prototype.toLowerCase`
acts on the identifiers in play. -/
def charLower (c : Char) : Char :=
  if 'A' ≤ c ∧ c ≤ 'Z' then Char.ofNat (c.toNat + 32) else c

/-- JS `s.toLowerCase()` (ASCII). -/
def strLower (s : String) : String :=
  String.mk (s.data.map charLower)

/-- JS `s.slice(0, n)`. -/
def strTake (s : String) (n : Nat) : String :=
  String.mk (s.data.take n)

/-- JS `s.slice(0, -n)`. -/
def strDropRight (s : String) (n : Nat) : String :=
  String.mk (s.data.take (s.data.length - n))

/-- JS `s.slice(n)`. -/
def strDrop (s : String) (n : Nat) : String :=
  String.mk (s.data.drop n)

/-- JS `s[0] === c` for the strings in play (`startsWith` on one char). -/
def strStartsWith (s p : String) : Bool :=
  p.data.isPrefixOf s.data

/-- JS `s[s.length - 1] === c` generalized to a suffix test. -/
def strEndsWith (s p : String) : Bool :=
  p.data.isSuffixOf s.data

/-- JS `s.indexOf(c) >= 0`. -/
def strContains (s : String) (c : Char) : Bool :=
  s.data.contains c

/-- JS regex character-class test over the string's characters. -/
def strAny (s : String) (p : Char → Bool) : Bool :=
  s.data.any p

/-- JS `parts.join(sep)` for string pieces. -/
def joinStr (sep : String) : List String → String
  | [] => ""
  | [x] => x
  | x :: xs => x ++ sep ++ joinStr sep xs

/-! ## Node `path` module (POSIX, restricted)

Modelled for paths without trailing separators and without `.` / `..`
segments or duplicate slashes — the only shapes the manager produces.
Node additionally normalizes those shapes; the manager never relies on it. -/

/-- Characters of the basename: the part after the last `/`. -/
def basenameChars (l : List Char) : List Char :=
  (splitChar '/' l).getLastD []

/-- Model of Node `path.basename`. -/
def pathBasename (s : String) : String :=
  String.mk (basenameChars s.data)

/-- Model of Node `path.dirname`. -/
def pathDirname (s : String) : String :=
  match splitChar '/' s.data with
  | [] => "."
  | [_] => "."
  | parts =>
    if parts.dropLast = [[]] then "/"
    else String.mk (joinChar '/' parts.dropLast)

/-- Model of Node `path.extname`: the suffix of the basename from its last
dot; empty for dotless names and for pure dotfiles such as `.bashrc`. -/
def pathExtname (s : String) : String :=
  match splitChar '.' (basenameChars s.data) with
  | [] => ""
  | [_] => ""
  | _first :: rest => String.mk ('.' :: rest.getLastD [])

/-- Model of Node `path.basename(p, ext)`: the basename with the suffix
`ext` stripped when it is a proper suffix. -/
def pathBasenameExt (p ext : String) : String :=
  let b := pathBasename p
  if b ≠ ext ∧ strEndsWith b ext then strDropRight b ext.data.length else b

/-- Model of Node `path.join` on two segments. -/
def pathJoin (a b : String) : String :=
  if a = "" ∨ a = "." then (if b = "" then "." else b)
  else if b = "" then a
  else if strEndsWith a "/" then a ++ b
  else a ++ "/" ++ b

/-! ## Spec-modelled `lib/utils.js` helpers

The provided `lib/utils.js` is truncated after `escapeRegex`; the helpers
below are repository code whose definitions are missing from the sources,
so they are modelled from the spec. -/

/-- Walk of the pending list keeping the first occurrence of each name. -/
def stripDupGo (seen : List String) : List String → List String
  | [] => []
  | x :: xs =>
    if x ∈ seen then stripDupGo seen xs
    else x :: stripDupGo (x :: seen) xs

/-- Modelled from the spec: `utils.stripDuplicates` is missing from the
provided `lib/utils.js`.  Spec §4.3 step 3: "Deduplicate while preserving
first-occurrence order." -/
def stripDuplicates (l : List String) : List String :=
  stripDupGo [] l

/-! ## Data model -/

/-- An asset record `{ name, mtime, hash }` as built by `indexAssets` and
filled in by `hashAssets`. -/
structure Asset where
  name : String
  mtime : Nat
  hash : String
deriving Repr, DecidableEq

/-- Per-call resolution options (the `options` argument of `asset` /
`assetUrl` / `assetPath`).  `includeGlobs` embeds `options.include` and
`prefixOpt` embeds `options.prefix`; both source names are reserved words
in Lean. -/
structure AssetOptions where
  includeGlobs : Option (List String) := none
  dependencies : Option (List String) := none
  prefixOpt : Option String := none
  attributes : Option (List (String × String)) := none
deriving Repr, DecidableEq

/-- Key-wise merge of two attribute objects, the left operand winning. -/
def mergeAttrs (a d : List (String × String)) : List (String × String) :=
  a ++ d.filter (fun p => !(alistContains a p.1))

/-- Modelled from the spec: `utils.mergeDefaults` is missing from the
provided `lib/utils.js`.  Spec §9 describes it as a deep merge of user
options over defaults: fields present in `opts` win, missing ones are
taken from `defaults`, and plain-object fields such as `attributes` merge
key-wise with `opts` winning per key. -/
def mergeDefaults (opts defaults : AssetOptions) : AssetOptions where
  includeGlobs := opts.includeGlobs <|> defaults.includeGlobs
  dependencies := opts.dependencies <|> defaults.dependencies
  prefixOpt := opts.prefixOpt <|> defaults.prefixOpt
  attributes :=
    match opts.attributes, defaults.attributes with
    | none, x => x
    | some a, none => some a
    | some a, some d => some (mergeAttrs a d)

/-- A registered compiler `{ output, compile, extname }`.  The compile
plugin is external; its `options` argument is absorbed into the abstract
function. -/
structure Compiler where
  output : String
  compile : String → Except String String
  extname : String

/-- A tag-formatter plugin `(url, options, attributes) → markup`, with the
`options` argument absorbed. -/
def TagFormatter : Type := String → List (String × String) → String

/-- The manager's merged options object (`this.options`), restricted to the
fields the embedded operations read.  `javascriptIIFE` embeds
`format(options.javascriptIIFE, contents)`, i.e. the template with `%s`
substitution already applied. -/
structure Config where
  assetPrefix : String := "asset"
  hashLength : Nat := 32
  servePrefix : String := "/"
  urlPrefix : String := ""
  compilers : List (String × Compiler) := []
  compressors : List (String × (String → Except String String)) := []
  tags : List (String × TagFormatter) := []
  compress : Bool := false
  wrapJavascript : Bool := false
  javascriptIIFE : String → String := fun s => "!function()\x7b" ++ s ++ "\x7d();"
  separateBundles : Bool := false

/-- A pending-asset entry `{ path, assets, dependencies, options }`. -/
structure PendingAsset where
  path : String
  assets : List Asset
  dependencies : List Asset
  options : AssetOptions

/-- The mutable state of a `Manager` instance. -/
structure Manager where
  options : Config
  assets : List (String × Asset) := []
  compiledAssets : List (String × List String) := []
  pendingAssets : List (String × PendingAsset) := []

/-- External collaborators: the `minimatch` matcher and
`utils.hashString(·, options.hash)`, the configured hex content digest. -/
structure Env where
  minimatchFn : String → String → Bool
  hashString : String → String

/-! ## Glob expansion -/

/-- The glob-detection pattern `/[*?\x7b\x7d]/` from `lib/assets.js`. -/
def isGlobChar (c : Char) : Bool :=
  c = '*' ∨ c = '?' ∨ c = '\x7b' ∨ c = '\x7d'

/-- JS `isGlob.test(s)`. -/
def hasGlobChar (s : String) : Bool :=
  strAny s isGlobChar

/-- The names matched by a glob pattern, in asset-map iteration order. -/
def globMatches (env : Env) (assets : List (String × Asset)) (g : String) :
    List String :=
  (alistKeys assets).filter (fun fn => env.minimatchFn fn g)

/-- `Manager.prototype.expandGlobs`: entries containing a glob character are
matched with `minimatch` against every known asset name; other entries pass
through unchanged; a glob matching nothing throws
`No assets matched the pattern "g"` (thrown errors are `Except.error`). -/
def expandGlobs (env : Env) (assets : List (String × Asset)) :
    List String → Except String (List String)
  | [] => .ok []
  | g :: rest =>
    if hasGlobChar g then
      let matchedNames := globMatches env assets g
      if matchedNames.isEmpty then
        .error ("No assets matched the pattern \"" ++ g ++ "\"")
      else
        (fun r => matchedNames ++ r) <$> expandGlobs env assets rest
    else
      (fun r => g :: r) <$> expandGlobs env assets rest

/-! ## Identifier resolution (`Manager.prototype.assetPath`) -/

/-- `Manager.prototype.getCompiledAssetFilename`:
`format('%s-%s-%s', assetPrefix, hash, filename)`. -/
def getCompiledAssetFilename (assetPrefix filename hash : String) : String :=
  assetPrefix ++ "-" ++ hash ++ "-" ++ filename

/-- The reverse compiler index built in the `Manager` constructor: for an
output extension, every registered compiler producing it, in registration
order, with `extname` set to its registration key. -/
def reverseCompilerIndex (compilers : List (String × Compiler)) (outputExt : String) :
    List Compiler :=
  (compilers.filter (fun p => p.2.output = outputExt)).map
    (fun p => { p.2 with extname := p.1 })

/-- Identifier remapping at the top of `assetPath`: a request phrased with a
compiler's source extension (`foo.less`) is rewritten to the compiler's
output extension (`foo.css`). -/
def remapIdentifier (compilers : List (String × Compiler)) (identifier : String) : String :=
  let extn := pathExtname identifier
  match alistFind? compilers extn with
  | none => identifier
  | some comp =>
    let dirn := if strContains identifier '/' then pathDirname identifier else ""
    pathJoin dirn (pathBasenameExt identifier extn ++ comp.output)

/-- The compiler-fallback loop of `assetPath`: walk the reverse-index
compilers in order, skip the candidate equal to the missing filename itself,
take the first candidate present in the asset map, and collect every
candidate tried before the hit. -/
def findFallback (assets : List (String × Asset)) (base filename : String) :
    List Compiler → Option Asset × List String
  | [] => (none, [])
  | c :: cs =>
    let uncompiledFilename := base ++ c.extname
    if uncompiledFilename = filename then findFallback assets base filename cs
    else
      match alistFind? assets uncompiledFilename with
      | some a => (some a, [])
      | none =>
        let r := findFallback assets base filename cs
        (r.1, uncompiledFilename :: r.2)

/-- Existence check for one entry of the resolved file list: lowercase the
name, look it up, otherwise try compiler fallback, otherwise fail with the
"could not be found" message naming every fallback candidate tried. -/
def lookupAsset (cfg : Config) (assets : List (String × Asset)) (isBundle : Bool)
    (identifier filename0 : String) : Except String Asset :=
  let filename := strLower filename0
  match alistFind? assets filename with
  | some a => .ok a
  | none =>
    let extn := pathExtname filename
    let dirn := if strContains filename '/' then pathDirname filename else ""
    let base := pathJoin dirn (pathBasenameExt filename extn)
    match findFallback assets base filename (reverseCompilerIndex cfg.compilers extn) with
    | (some a, _) => .ok a
    | (none, tried) =>
      let message := "Asset \"" ++ filename ++ "\" could not be found"
      let message :=
        if isBundle then message ++ " when building asset \"" ++ identifier ++ "\""
        else message
      let message :=
        if tried.isEmpty then message
        else message ++ " (tried \"" ++ joinStr "\", \"" tried ++ "\")"
      .error message

/-- The existence loop over the whole file list; the first failure aborts. -/
def lookupAssets (cfg : Config) (assets : List (String × Asset)) (isBundle : Bool)
    (identifier : String) : List String → Except String (List Asset)
  | [] => .ok []
  | f :: fs => do
    let a ← lookupAsset cfg assets isBundle identifier f
    let rest ← lookupAssets cfg assets isBundle identifier fs
    .ok (a :: rest)

/-- Dependency lookup: each expanded dependency name is looked up verbatim
(no lowercasing, no compiler fallback); the first missing one throws
`Failed to locate "name"`. -/
def lookupDeps (assets : List (String × Asset)) :
    List String → Except String (List Asset)
  | [] => .ok []
  | d :: ds =>
    match alistFind? assets d with
    | none => .error ("Failed to locate \"" ++ d ++ "\"")
    | some a => (fun rest => a :: rest) <$> lookupDeps assets ds

/-- The result of a successful resolution inside `assetPath`. -/
structure Resolved where
  path : String
  assetFilename : String
  hash : String
  assets : List Asset
  dependencies : List Asset
deriving Repr, DecidableEq

/-- The hash-and-filename tail of `assetPath` (after both lookups
succeeded): concatenate the content hashes of all constituents followed by
all dependencies in list order with `:`, digest, truncate to `hashLength`,
and build `{assetPrefix}-{hash}-{basename}` under the identifier's
directory and the serve prefix. -/
def finishResolve (env : Env) (cfg : Config) (identifier : String)
    (resolvedAssets dependencies : List Asset) : Resolved :=
  let assetHashes := joinStr ":" ((resolvedAssets ++ dependencies).map Asset.hash)
  let hash := strTake (env.hashString assetHashes) cfg.hashLength
  let canonical := pathBasename identifier
  let assetDirname := if strContains identifier '/' then pathDirname identifier else ""
  let assetFilename :=
    pathJoin assetDirname (getCompiledAssetFilename cfg.assetPrefix canonical hash)
  { path := pathJoin cfg.servePrefix assetFilename, assetFilename := assetFilename,
    hash := hash, assets := resolvedAssets, dependencies := dependencies }

/-- The dependency block of `assetPath`: expand the dependency globs,
deduplicate, look each name up; any thrown error gets the
"when finding dependencies" suffix. -/
def resolveDeps (env : Env) (assets : List (String × Asset))
    (identifier : String) : Option (List String) → Except String (List Asset)
  | none => .ok []
  | some depGlobs =>
    match (match expandGlobs env assets depGlobs with
      | .error e => Except.error e
      | .ok fns => lookupDeps assets (stripDuplicates fns)) with
    | .error e =>
      .error (e ++ " when finding dependencies for \"" ++ identifier ++ "\"")
    | .ok ds => .ok ds

/-- The pure body of `Manager.prototype.assetPath`: build the file list,
deduplicate, resolve every constituent (with compiler fallback) and every
dependency, then compute the output path.  It reads only the asset map and
the configuration; `assetPath` itself performs the state updates. -/
def resolveAsset (env : Env) (cfg : Config) (assets : List (String × Asset))
    (identifier : String) (opts : AssetOptions) : Except String Resolved :=
  match (match opts.includeGlobs with
    | some globs =>
      match expandGlobs env assets globs with
      | .error e =>
        Except.error (e ++ " when building asset \"" ++ identifier ++ "\"")
      | .ok fns => Except.ok fns
    | none => Except.ok [identifier]) with
  | .error e => .error e
  | .ok filenames0 =>
    if (stripDuplicates filenames0).isEmpty then .error "No assets were defined"
    else
      match lookupAssets cfg assets opts.includeGlobs.isSome identifier
          (stripDuplicates filenames0) with
      | .error e => .error e
      | .ok resolvedAssets =>
        match resolveDeps env assets identifier opts.dependencies with
        | .error e => .error e
        | .ok dependencies =>
          .ok (finishResolve env cfg identifier resolvedAssets dependencies)

/-- The state-updating tail of `assetPath`: record the pending asset and
drop stale compiled copies of the same identifier (their `fs.unlink` is a
best-effort side effect outside the model), or emit the resolution error
(`emit('error', …)` is modelled as the returned message list) and return
the empty string. -/
def assetPathBody (env : Env) (m : Manager) (identifier : String)
    (opts : AssetOptions) : String × Manager × List String :=
  match resolveAsset env m.options m.assets identifier opts with
  | .error e => ("", m, [e])
  | .ok r =>
    let pendingAssets := alistInsert m.pendingAssets identifier
      { path := r.path, assets := r.assets, dependencies := r.dependencies,
        options := opts }
    let compiledAssets :=
      match alistFind? m.compiledAssets identifier with
      | none => m.compiledAssets
      | some existing =>
        alistInsert m.compiledAssets identifier
          (existing.filter (fun file => file = r.assetFilename))
    (r.path, { m with pendingAssets := pendingAssets, compiledAssets := compiledAssets }, [])

/-- `Manager.prototype.assetPath`.  The source's single recursive call
(with `force` set) is unrolled: it re-enters at the top, where lowercasing
and compiler remapping apply again, and then runs the body because `force`
skips the pending check. -/
def assetPath (env : Env) (m : Manager) (identifier : String)
    (opts : AssetOptions) (force : Bool) : String × Manager × List String :=
  let id1 := strLower identifier
  let id2 := remapIdentifier m.options.compilers id1
  if force then assetPathBody env m id2 opts
  else
    match alistFind? m.pendingAssets id2 with
    | some entry =>
      let merged := mergeDefaults opts entry.options
      let id3 := remapIdentifier m.options.compilers (strLower id2)
      assetPathBody env m id3 merged
    | none => assetPathBody env m id2 opts

/-! ## URL resolution (`Manager.prototype.assetUrl`) -/

/-- The body of `assetUrl` after the pending check.  Note the prefix choice:
`this.options.urlPrefix || options.prefix` — the globally configured
`urlPrefix`, when non-empty, takes precedence over the per-call
`options.prefix`; a duplicate `/` at the join point is collapsed. -/
def assetUrlBody (env : Env) (m : Manager) (identifier : String)
    (opts : AssetOptions) : String × Manager × List String :=
  let r := assetPath env m identifier opts false
  let url := r.1
  if url = "" then ("", r.2.1, r.2.2)
  else
    let pfx :=
      if m.options.urlPrefix ≠ "" then m.options.urlPrefix
      else opts.prefixOpt.getD ""
    if pfx = "" then (url, r.2.1, r.2.2)
    else
      let pfx := if strStartsWith url "/" ∧ strEndsWith pfx "/" then strDropRight pfx 1 else pfx
      (pfx ++ url, r.2.1, r.2.2)

/-- `Manager.prototype.assetUrl`, with the forced recursive call unrolled. -/
def assetUrl (env : Env) (m : Manager) (identifier : String)
    (opts : AssetOptions) (force : Bool) : String × Manager × List String :=
  let id1 := strLower identifier
  if force then assetUrlBody env m id1 opts
  else
    match alistFind? m.pendingAssets id1 with
    | some entry => assetUrlBody env m (strLower id1) (mergeDefaults opts entry.options)
    | none => assetUrlBody env m id1 opts

/-! ## View helper (`Manager.prototype.asset`) -/

/-- The tag-formatting tail of `asset`: resolve the URL, look up a
formatter for the resolved URL's extension; with none registered, emit the
"Unable to create an HTML tag" error and return the empty string.  Note the
source does not special-case a failed resolution here: the empty URL has
extension `""`, which no formatter is registered for. -/
def assetTag (env : Env) (m : Manager) (identifier : String)
    (opts : AssetOptions) : String × Manager × List String :=
  match alistFind? m.options.tags
      (pathExtname (assetUrl env m identifier opts false).1) with
  | none =>
    ("", (assetUrl env m identifier opts false).2.1,
      (assetUrl env m identifier opts false).2.2
        ++ ["Unable to create an HTML tag for type \""
            ++ pathExtname (assetUrl env m identifier opts false).1 ++ "\""])
  | some fmt =>
    (fmt (assetUrl env m identifier opts false).1 (opts.attributes.getD []),
     (assetUrl env m identifier opts false).2.1,
     (assetUrl env m identifier opts false).2.2)

mutual

/-- `Manager.prototype.asset`, fuel-indexed because the `separateBundles`
branch recurses into each bundle member (the fuel is an artifact of the
embedding; every configuration exercised below stays within it).  Without
`separateBundles`, the only recursion is the single forced re-entry after
merging stored options.  The identifier is *not* lowercased here (only
`assetUrl` / `assetPath` lowercase), matching the source. -/
def assetCore (env : Env) : Nat → Manager → String → AssetOptions → Bool →
    String × Manager × List String
  | 0, m, _, _, _ => ("", m, [])
  | fuel + 1, m, identifier, opts, force =>
    if force = false ∧ (alistFind? m.pendingAssets identifier).isSome then
      match alistFind? m.pendingAssets identifier with
      | some entry =>
        assetCore env fuel m identifier (mergeDefaults opts entry.options) true
      | none => ("", m, [])
    else if m.options.separateBundles ∧ opts.includeGlobs.isSome then
      match expandGlobs env m.assets (opts.includeGlobs.getD []) with
      | .error e => ("", m, [e ++ " when building asset \"" ++ identifier ++ "\""])
      | .ok includeNames =>
        assetBundle env fuel m includeNames { opts with includeGlobs := none }
    else assetTag env m identifier opts
termination_by fuel m identifier opts force => (fuel, 0)

/-- The `separateBundles` branch: each matched name becomes its own asset;
outputs are joined with a newline; state and emitted errors thread through. -/
def assetBundle (env : Env) : Nat → Manager → List String → AssetOptions →
    String × Manager × List String
  | _, m, [], _ => ("", m, [])
  | fuel, m, identifier :: rest, opts =>
    let r := assetCore env fuel m identifier opts false
    if rest.isEmpty then r
    else
      let r2 := assetBundle env fuel r.2.1 rest opts
      (r.1 ++ "\n" ++ r2.1, r2.2.1, r.2.2 ++ r2.2.2)
termination_by fuel m names opts => (fuel, names.length + 1)

end

/-- `Manager.prototype.asset` as called by users and templates. -/
def asset (env : Env) (m : Manager) (identifier : String) (opts : AssetOptions) :
    String × Manager × List String :=
  assetCore env (m.assets.length + 2) m identifier opts false

/-! ## Compilation pipeline (`Manager.prototype.compileAsset`) -/

/-- A failure in the compile pipeline: the offending file or output path
together with the underlying I/O or plugin message, from which the
`format(...)` strings passed to the callback are built. -/
inductive CompileError where
  | readFailed (name msg : String)
  | compileFailed (name msg : String)
  | compressFailed (outputPath msg : String)
deriving Repr, DecidableEq

/-- The message of the `Error` handed to the callback. -/
def CompileError.message : CompileError → String
  | .readFailed name msg => "Failed to read file \"" ++ name ++ "\": " ++ msg
  | .compileFailed name msg => "Failed to compile file \"" ++ name ++ "\": " ++ msg
  | .compressFailed p msg => "Failed to compress asset \"" ++ p ++ "\": " ++ msg

/-- The `async.eachSeries` read-and-compile loop: sequential, aborting on
the first failure.  `readFs` abstracts `fs.readFile` under the static
directory. -/
def readAndCompile (readFs : String → Except String String) (cfg : Config) :
    List Asset → Except CompileError (List String)
  | [] => .ok []
  | a :: rest =>
    match readFs a.name with
    | .error msg => .error (.readFailed a.name msg)
    | .ok fileContents =>
      match alistFind? cfg.compilers (pathExtname a.name) with
      | none => (fun l => fileContents :: l) <$> readAndCompile readFs cfg rest
      | some comp =>
        match comp.compile fileContents with
        | .error msg => .error (.compileFailed a.name msg)
        | .ok compiled => (fun l => compiled :: l) <$> readAndCompile readFs cfg rest

/-- The concatenation and optional IIFE-wrap step of `compileAsset`: the
compiled pieces are joined with no separator, and a `.js` output is wrapped
in the IIFE template when `wrapJavascript` is set. -/
def assembleContents (cfg : Config) (file : PendingAsset) (pieces : List String) :
    String :=
  let contents := joinStr "" pieces
  let extn := pathExtname file.path
  if extn = ".js" ∧ cfg.wrapJavascript then cfg.javascriptIIFE contents
  else contents

/-- `Manager.prototype.compileAsset` over an explicit file-system map keyed
by path relative to the static directory (the constant
`path.join(this.dir, ·)` prefix is dropped).  The write to the output path
happens only after every read, compile, wrap and compress step succeeded;
on failure the callback receives exactly one error and the file system is
returned unchanged. -/
def compileAsset (readFs : String → Except String String) (cfg : Config)
    (file : PendingAsset) (fs : List (String × String)) :
    Option CompileError × List (String × String) :=
  match readAndCompile readFs cfg file.assets with
  | .error e => (some e, fs)
  | .ok pieces =>
    match cfg.compress, alistFind? cfg.compressors (pathExtname file.path) with
    | true, some compressor =>
      match compressor (assembleContents cfg file pieces) with
      | .error msg => (some (.compressFailed file.path msg), fs)
      | .ok compressed => (none, alistInsert fs file.path compressed)
    | _, _ => (none, alistInsert fs file.path (assembleContents cfg file pieces))

/-! ## Hash cache (`Manager.prototype.hashAssets`) -/

/-- A usable persisted manifest entry (only `mtime` and `hash` are read
back). -/
structure ManifestEntry where
  mtime : Nat
  hash : String
deriving Repr, DecidableEq

/-- One slot of a parsed manifest object, as `JSON.parse` may produce it:
a usable `{ mtime, hash }` record; the JSON `null` literal, on which
reading `.mtime` throws a `TypeError`; or some other non-null JSON value,
whose `.mtime` reads back `undefined` and therefore never equals the
file's mtime. -/
inductive ManifestSlot where
  | record (e : ManifestEntry)
  | nullSlot
  | primitive
deriving Repr, DecidableEq

/-- The `manifest` variable after the parse guard of `hashAssets`.  The
guard is `JSON.parse(fs.readFileSync(...))` followed by
`assert.equal(typeof manifest, 'object')`, both inside a `try/catch`: a
read or parse failure and every non-object parse result are caught and
replaced by `{}`, but the JSON value `null` satisfies
`typeof null === 'object'` and survives the guard as `null`. -/
inductive ManifestDoc where
  | obj (entries : List (String × ManifestSlot))
  | nullDoc
deriving Repr, DecidableEq

/-- A `TypeError` thrown by the reuse loop of `hashAssets`; the
`try/catch` wraps only the read-and-parse, so it escapes the function
uncaught. -/
inductive JsError where
  | typeError (msg : String)
deriving Repr, DecidableEq

/-- Per-file step of the reuse loop:
`filename in manifest && manifest[filename].mtime === file.mtime` reuses
the stored hash on an identical-mtime hit; a `null`-valued entry throws a
`TypeError` when `.mtime` is read; anything else computes a fresh content
hash (`hashFile` abstracts `utils.hashFile(dir/name, algo)`) and flags
the manifest outdated. -/
def hashOne (hashFile : String → String)
    (manifest : List (String × ManifestSlot)) (filename : String)
    (file : Asset) : Except JsError (Asset × Bool) :=
  match alistFind? manifest filename with
  | some (.record entry) =>
    if entry.mtime = file.mtime then .ok ({ file with hash := entry.hash }, false)
    else .ok ({ file with hash := hashFile filename }, true)
  | some .nullSlot =>
    .error (.typeError "Cannot read properties of null (reading 'mtime')")
  | some .primitive => .ok ({ file with hash := hashFile filename }, true)
  | none => .ok ({ file with hash := hashFile filename }, true)

/-- The `for (filename in this.assets)` loop of `hashAssets`: sequential,
a thrown `TypeError` aborts the whole function before `writeManifest` can
run (the in-place hash assignments made before the throw are not
observable through any later operation and are not modelled). -/
def hashAssetsLoop (hashFile : String → String)
    (manifest : List (String × ManifestSlot)) :
    List (String × Asset) → Except JsError (List (String × Asset) × Bool)
  | [] => .ok ([], false)
  | p :: rest =>
    match hashOne hashFile manifest p.1 p.2 with
    | .error e => .error e
    | .ok (a, flag) =>
      match hashAssetsLoop hashFile manifest rest with
      | .error e => .error e
      | .ok (as, outdated) => .ok ((p.1, a) :: as, flag || outdated)

/-- `Manager.prototype.hashAssets`.  `manifestRaw` is the guarded parse
outcome: `none` when the manifest file was absent, unreadable, unparsable
or parsed to a non-object (all caught and replaced by `{}`), `some d`
when a value with `typeof === 'object'` came back — including JSON
`null`.  With a `null` manifest and at least one indexed asset, the
loop's very first `filename in manifest` throws a `TypeError` naming that
filename (an empty asset map never runs the loop body).  On the
non-throwing path the result is the updated asset map and the `outdated`
flag; the source runs `writeManifest()` exactly when that flag is true. -/
def hashAssets (hashFile : String → String) (manifestRaw : Option ManifestDoc)
    (assets : List (String × Asset)) :
    Except JsError (List (String × Asset) × Bool) :=
  match manifestRaw.getD (.obj []) with
  | .nullDoc =>
    match assets with
    | [] => .ok ([], false)
    | p :: _ =>
      .error (.typeError
        ("Cannot use 'in' operator to search for '" ++ p.1 ++ "' in null"))
  | .obj entries => hashAssetsLoop hashFile entries assets

/-! ## Compiled-asset filenames -/

/-- Hex digits as matched by `[0-9a-f]`. -/
def isHexChar (c : Char) : Bool :=
  ('0' ≤ c ∧ c ≤ '9') ∨ ('a' ≤ c ∧ c ≤ 'f')

/-- Strip an exact literal prefix from a character list. -/
def dropPre : List Char → List Char → Option (List Char)
  | [], l => some l
  | _ :: _, [] => none
  | p :: ps, x :: xs => if x = p then dropPre ps xs else none

/-- `Manager.prototype.isCompiledAsset`: the basename is tested against
`^escapeRegex(assetPrefix)-[0-9a-f]+?-`.  A match exists exactly when the
basename starts with the prefix, a dash, a non-empty hex run and another
dash; `-` is not a hex digit, so the non-greedy quantifier changes nothing
and the test equals the greedy scan below. -/
def isCompiledAsset (assetPrefix : String) (file : String) : Bool :=
  match dropPre (assetPrefix.data ++ ['-']) (basenameChars file.data) with
  | none => false
  | some rest =>
    !(rest.takeWhile isHexChar).isEmpty &&
      (match rest.drop (rest.takeWhile isHexChar).length with
       | '-' :: _ => true
       | _ => false)

/-- `Manager.prototype.getCanonicalPath`: drop the first two dash-separated
segments of the basename and re-join with dashes. -/
def getCanonicalPath (file : String) : String :=
  pathJoin (pathDirname file)
    (String.mk (joinChar '-' ((splitChar '-' (basenameChars file.data)).drop 2)))

/-! ## Request serializer (the compile middlewares installed by `init`)

The three `app.use` middlewares that serialize compilation per canonical
output path, modelled as a labelled transition system over the manager's
`compilingNow` registry.  The runtime is single-threaded, so every
middleware body runs atomically; `running` records the compilations whose
`compileAsset` continuation has not fired yet (the requests carrying
`_canonicalAssetName`), and `delivered` logs the outcome each request was
resumed with. -/

abbrev RequestId := Nat

/-- How a request leaves the compile middlewares: `success` continues to
the static middleware, `failure` carries the error passed to `next(err)`. -/
inductive Outcome where
  | success
  | failure (msg : String)
deriving Repr, DecidableEq

/-- The serializer-relevant state. -/
structure SrvState where
  compilingNow : List (String × List RequestId)
  running : List (String × RequestId)
  delivered : List (RequestId × Outcome)
deriving Repr, DecidableEq

/-- The idle initial state: no compilation in flight. -/
def SrvState.start : SrvState :=
  { compilingNow := [], running := [], delivered := [] }

/-- One middleware activation. -/
inductive SrvStep : SrvState → SrvState → Prop where
  /-- A request for a known pending asset arrives and no compilation for its
  canonical path is in flight: an empty wait queue is registered, the
  request is tagged with `_canonicalAssetName` and `compileAsset` starts. -/
  | startCompile (s : SrvState) (canonical : String) (r : RequestId)
      (hnotin : alistFind? s.compilingNow canonical = none) :
      SrvStep s { s with
        compilingNow := alistInsert s.compilingNow canonical []
        running := (canonical, r) :: s.running }
  /-- A request arrives while the path is compiling: it is appended to the
  wait queue and `compileAsset` is *not* invoked again. -/
  | queueRequest (s : SrvState) (canonical : String) (r : RequestId)
      (q : List RequestId)
      (hin : alistFind? s.compilingNow canonical = some q) :
      SrvStep s { s with
        compilingNow := alistInsert s.compilingNow canonical (q ++ [r]) }
  /-- The compilation finishes (the resume middleware on success, the error
  middleware on failure): the registry entry is deleted and the triggering
  request plus every queued request leave with the same outcome. -/
  | complete (s : SrvState) (canonical : String) (r : RequestId) (o : Outcome)
      (q : List RequestId)
      (hrun : (canonical, r) ∈ s.running)
      (hq : alistFind? s.compilingNow canonical = some q) :
      SrvStep s
        { compilingNow := alistErase s.compilingNow canonical
          running := s.running.filter (fun p => p.1 ≠ canonical)
          delivered := s.delivered ++ (r, o) :: q.map (fun w => (w, o)) }

/-- States reachable from the idle initial state. -/
inductive SrvReachable : SrvState → Prop where
  | start : SrvReachable SrvState.start
  | step (s t : SrvState) (hs : SrvReachable s) (hst : SrvStep s t) :
      SrvReachable t

/-! ## Concrete fixtures for the closed examples -/

/-- An abstract environment whose digest is the identity function and whose
matcher compares the pattern's extension suffix. -/
def exEnv : Env :=
  { minimatchFn := fun fn g => strEndsWith fn (strDrop g 1), hashString := fun s => s }

/-- A registered `.less → .css` compiler whose compile step is the
identity. -/
def exLessCompiler : Compiler :=
  { output := ".css", compile := fun s => .ok s, extname := ".less" }

/-- A configuration with the `.less → .css` compiler and a `.css` tag
formatter. -/
def exCfg : Config :=
  { compilers := [(".less", exLessCompiler)],
    tags := [(".css", fun url _ => url)] }

/-- An asset map holding only `foo.less`. -/
def exAssets : List (String × Asset) :=
  [("foo.less", { name := "foo.less", mtime := 1, hash := "abc" })]

/-- A manager over `exAssets`. -/
def exManager : Manager :=
  { options := exCfg, assets := exAssets }

/-- A manager with the same configuration but an empty asset directory. -/
def exManagerEmpty : Manager :=
  { options := exCfg }

/-- The resolution produced for `foo.css` over `exAssets`. -/
def exResolved : Resolved :=
  { path := "/asset-abc-foo.css", assetFilename := "asset-abc-foo.css",
    hash := "abc", assets := [{ name := "foo.less", mtime := 1, hash := "abc" }],
    dependencies := [] }

/-- A configuration with both a global `urlPrefix` and a short hash. -/
def exCfgPrefix : Config :=
  { hashLength := 3, urlPrefix := "http://global/" }

/-- The manager used to exhibit the prefix-precedence divergence. -/
def exManagerPrefix : Manager :=
  { options := exCfgPrefix,
    assets := [("jquery.js", { name := "jquery.js", mtime := 1, hash := "82470a" })] }

/-! ## Helper lemmas -/

theorem except_map_error {ε α β : Type} (f : α → β) (x : Except ε α) (e : ε)
    (h : f <$> x = .error e) : x = .error e := by
  cases x with
  | error e2 =>
    simp only [Functor.map, Except.map] at h
    cases h
    rfl
  | ok a => simp [Functor.map, Except.map] at h

/-- Every successful resolution is the deterministic hash-and-filename tail
applied to the resolved constituent and dependency lists. -/
theorem resolveAsset_ok_shape (env : Env) (cfg : Config)
    (assets : List (String × Asset)) (identifier : String) (opts : AssetOptions)
    (r : Resolved) (h : resolveAsset env cfg assets identifier opts = .ok r) :
    r = finishResolve env cfg identifier r.assets r.dependencies := by
  unfold resolveAsset at h
  split at h
  · exact absurd h (by simp)
  · split at h
    · exact absurd h (by simp)
    · split at h
      · exact absurd h (by simp)
      · split at h
        · exact absurd h (by simp)
        · cases h
          rfl

/-! ## Claim theorems -/

/-- C10: an include or dependency entry is glob-matched against the known
asset set if and only if it contains one of the characters `*`, `?`,
`\x7b`, `\x7d`: such an entry expands to the `minimatch` hits over the
asset names (or throws the "No assets matched" error when there are none),
while any other entry — including one using only `[...]` character-class
syntax — passes through unchanged as a literal filename; and every error
`expandGlobs` can throw originates from a glob-character entry, so a
literal entry never triggers it even when it names no existing asset. -/
theorem expandGlobs_glob_iff (env : Env) (assets : List (String × Asset))
    (e : String) (rest : List String) :
    (hasGlobChar e = true →
      expandGlobs env assets (e :: rest) =
        (if (globMatches env assets e).isEmpty then
          .error ("No assets matched the pattern \"" ++ e ++ "\"")
        else (fun r => globMatches env assets e ++ r) <$> expandGlobs env assets rest))
    ∧ (hasGlobChar e = false →
      expandGlobs env assets (e :: rest) =
        (fun r => e :: r) <$> expandGlobs env assets rest)
    ∧ (∀ globs err, expandGlobs env assets globs = .error err →
        ∃ g ∈ globs, hasGlobChar g = true ∧
          (globMatches env assets g).isEmpty = true ∧
          err = "No assets matched the pattern \"" ++ g ++ "\"") := by
  refine ⟨fun h => by simp [expandGlobs, h], fun h => by simp [expandGlobs, h], ?_⟩
  intro globs
  induction globs with
  | nil => intro err h; simp [expandGlobs] at h
  | cons g gs ih =>
    intro err h
    unfold expandGlobs at h
    by_cases hg : hasGlobChar g = true
    · rw [if_pos hg] at h
      by_cases he : (globMatches env assets g).isEmpty = true
      · simp only [he, if_true] at h
        cases h
        exact ⟨g, List.mem_cons_self g gs, hg, he, rfl⟩
      · rw [if_neg he] at h
        have h2 := except_map_error _ _ _ h
        obtain ⟨g2, hmem, h3⟩ := ih err h2
        exact ⟨g2, List.mem_cons_of_mem g hmem, h3⟩
    · rw [if_neg hg] at h
      have h2 := except_map_error _ _ _ h
      obtain ⟨g2, hmem, h3⟩ := ih err h2
      exact ⟨g2, List.mem_cons_of_mem g hmem, h3⟩

/-- Closed instance of `expandGlobs_glob_iff`: the bracket-only pattern
`[a-z].css` is passed through as a literal although no asset carries that
name, and the starred pattern `*.less` is matched against the asset set. -/
theorem expandGlobs_glob_iff_witness :
    expandGlobs exEnv exAssets ["[a-z].css"] = .ok ["[a-z].css"]
    ∧ expandGlobs exEnv exAssets ["*.less"] = .ok ["foo.less"] := by
  constructor
  · rw [(expandGlobs_glob_iff exEnv exAssets "[a-z].css" []).2.1 (by rfl)]
    rfl
  · rw [(expandGlobs_glob_iff exEnv exAssets "*.less" []).1 (by rfl)]
    rfl

/-- C3: the fingerprint of every resolved asset is the configured digest of
the `:`-joined content hashes of all constituent files followed by all
dependency files, in list order, truncated to the configured hash length;
the output filename embeds exactly that fingerprint; and the fingerprint is
a deterministic function of the ordered hash list — two resolutions with
equal hash lists (and equal configured length) agree. -/
theorem assetPath_fingerprint (env : Env) (cfg cfg2 : Config)
    (assets assets2 : List (String × Asset)) (ident1 ident2 : String)
    (o1 o2 : AssetOptions) (r1 r2 : Resolved)
    (h1 : resolveAsset env cfg assets ident1 o1 = .ok r1)
    (h2 : resolveAsset env cfg2 assets2 ident2 o2 = .ok r2)
    (hlen : cfg.hashLength = cfg2.hashLength)
    (hlist : (r1.assets ++ r1.dependencies).map Asset.hash
           = (r2.assets ++ r2.dependencies).map Asset.hash) :
    r1.hash = strTake (env.hashString
        (joinStr ":" ((r1.assets ++ r1.dependencies).map Asset.hash))) cfg.hashLength
    ∧ r1.assetFilename = pathJoin
        (if strContains ident1 '/' then pathDirname ident1 else "")
        (getCompiledAssetFilename cfg.assetPrefix (pathBasename ident1) r1.hash)
    ∧ r1.hash = r2.hash := by
  have s1 := resolveAsset_ok_shape env cfg assets ident1 o1 r1 h1
  have s2 := resolveAsset_ok_shape env cfg2 assets2 ident2 o2 r2 h2
  have hh1 : r1.hash = strTake (env.hashString
      (joinStr ":" ((r1.assets ++ r1.dependencies).map Asset.hash))) cfg.hashLength :=
    congrArg Resolved.hash s1
  have hh2 : r2.hash = strTake (env.hashString
      (joinStr ":" ((r2.assets ++ r2.dependencies).map Asset.hash))) cfg2.hashLength :=
    congrArg Resolved.hash s2
  refine ⟨hh1, ?_, ?_⟩
  · rw [hh1]
    exact congrArg Resolved.assetFilename s1
  · rw [hh1, hh2, hlist, hlen]

/-- Closed instance of `assetPath_fingerprint` at the `foo.css` fixture. -/
theorem assetPath_fingerprint_witness :
    exResolved.hash = strTake (exEnv.hashString
        (joinStr ":" ((exResolved.assets ++ exResolved.dependencies).map Asset.hash)))
        exCfg.hashLength
    ∧ exResolved.assetFilename = pathJoin
        (if strContains "foo.css" '/' then pathDirname "foo.css" else "")
        (getCompiledAssetFilename exCfg.assetPrefix (pathBasename "foo.css") exResolved.hash)
    ∧ exResolved.hash = exResolved.hash :=
  assetPath_fingerprint exEnv exCfg exCfg exAssets exAssets "foo.css" "foo.css"
    {} {} exResolved exResolved (by rfl) (by rfl) rfl rfl

/-- C5: the compiler-fallback loop substitutes the first compiler (in
reverse-index order) whose source file `base + extname` exists, skipping
the candidate equal to the missing filename itself, and records every
candidate attempted before the hit; when no candidate exists the lookup
fails with the "could not be found" error naming the missing filename and
every attempted fallback filename; and requesting `foo.css` when only
`foo.less` exists with a registered `.less → .css` compiler resolves to a
hashed `.css` output path. -/
theorem compiler_fallback_spec :
    (∀ (assets : List (String × Asset)) (base filename : String) (cs : List Compiler),
      findFallback assets base filename cs =
        (cs.findSome? (fun c =>
            if base ++ c.extname = filename then none
            else alistFind? assets (base ++ c.extname)),
         (cs.takeWhile (fun c =>
            (if base ++ c.extname = filename then none
             else alistFind? assets (base ++ c.extname)).isNone)).filterMap
           (fun c =>
            if base ++ c.extname = filename then none
            else some (base ++ c.extname))))
    ∧ lookupAsset exCfg ([] : List (String × Asset)) false "foo.css" "foo.css"
      = .error "Asset \"foo.css\" could not be found (tried \"foo.less\")"
    ∧ (assetPath exEnv exManager "foo.css" {} false).1 = "/asset-abc-foo.css" := by
  refine ⟨?_, by rfl, by rfl⟩
  intro assets base filename cs
  induction cs with
  | nil => rfl
  | cons c rest ih =>
    by_cases h1 : base ++ c.extname = filename
    · simp [findFallback, h1, ih, List.findSome?_cons, List.takeWhile_cons,
        List.filterMap_cons]
    · cases h2 : alistFind? assets (base ++ c.extname) with
      | some a =>
        simp [findFallback, h1, h2, List.findSome?_cons, List.takeWhile_cons,
          List.filterMap_cons]
      | none =>
        simp [findFallback, h1, h2, ih, List.findSome?_cons, List.takeWhile_cons,
          List.filterMap_cons]

/-- C1 (divergence evidence): with both a global `urlPrefix` and a per-call
`options.prefix` set, `assetUrl` applies the *global* prefix — the source
computes `this.options.urlPrefix || options.prefix`, so the global value
wins whenever it is non-empty, contradicting the claim that the per-call
value wins; the per-call prefix applies only when the global one is empty.
Both conjuncts evaluate the embedded code at the same resolved asset. -/
theorem assetUrl_global_prefix_precedence :
    (assetUrl exEnv exManagerPrefix "jquery.js"
        { prefixOpt := some "http://percall/" } false).1
      = "http://global/asset-824-jquery.js"
    ∧ (assetUrl exEnv { exManagerPrefix with
          options := { exManagerPrefix.options with urlPrefix := "" } }
        "jquery.js" { prefixOpt := some "http://percall/" } false).1
      = "http://percall/asset-824-jquery.js" := by
  exact ⟨rfl, rfl⟩

/-- A read-and-compile failure always names a file from the constituent
list: it is a read or compile failure for some member, never a compress
failure. -/
theorem readAndCompile_error_names (readFs : String → Except String String)
    (cfg : Config) (l : List Asset) (e : CompileError)
    (h : readAndCompile readFs cfg l = .error e) :
    (∃ n msg, e = .readFailed n msg ∧ ∃ a ∈ l, a.name = n)
    ∨ (∃ n msg, e = .compileFailed n msg ∧ ∃ a ∈ l, a.name = n) := by
  induction l with
  | nil => simp [readAndCompile] at h
  | cons a rest ih =>
    unfold readAndCompile at h
    cases hr : readFs a.name with
    | error msg =>
      simp only [hr] at h
      cases h
      exact Or.inl ⟨a.name, msg, rfl, a, List.mem_cons_self a rest, rfl⟩
    | ok fileContents =>
      simp only [hr] at h
      cases hc : alistFind? cfg.compilers (pathExtname a.name) with
      | none =>
        simp only [hc] at h
        rcases ih (except_map_error _ _ _ h) with ⟨n, msg, he, a2, hm, hn⟩ | ⟨n, msg, he, a2, hm, hn⟩
        · exact Or.inl ⟨n, msg, he, a2, List.mem_cons_of_mem a hm, hn⟩
        · exact Or.inr ⟨n, msg, he, a2, List.mem_cons_of_mem a hm, hn⟩
      | some comp =>
        simp only [hc] at h
        cases hcc : comp.compile fileContents with
        | error msg =>
          simp only [hcc] at h
          cases h
          exact Or.inr ⟨a.name, msg, rfl, a, List.mem_cons_self a rest, rfl⟩
        | ok compiled =>
          simp only [hcc] at h
          rcases ih (except_map_error _ _ _ h) with ⟨n, msg, he, a2, hm, hn⟩ | ⟨n, msg, he, a2, hm, hn⟩
          · exact Or.inl ⟨n, msg, he, a2, List.mem_cons_of_mem a hm, hn⟩
          · exact Or.inr ⟨n, msg, he, a2, List.mem_cons_of_mem a hm, hn⟩

/-- C7: `compileAsset` aborts on the first read, compile, or compress
failure, reporting exactly one error that names the offending file (for
read/compile failures) or the output path (for compress failures), and the
file-system map is returned unchanged — no bytes are written on failure;
on success exactly one write of the fully assembled output is performed at
the pending asset's output path. -/
theorem compileAsset_failure_atomic (readFs : String → Except String String)
    (cfg : Config) (file : PendingAsset) (fs : List (String × String)) :
    (∀ e, (compileAsset readFs cfg file fs).1 = some e →
      (compileAsset readFs cfg file fs).2 = fs ∧
      ((∃ n msg, e = .readFailed n msg ∧ ∃ a ∈ file.assets, a.name = n)
       ∨ (∃ n msg, e = .compileFailed n msg ∧ ∃ a ∈ file.assets, a.name = n)
       ∨ (∃ msg, e = .compressFailed file.path msg)))
    ∧ ((compileAsset readFs cfg file fs).1 = none →
      ∃ bytes, (compileAsset readFs cfg file fs).2 = alistInsert fs file.path bytes) := by
  cases hr : readAndCompile readFs cfg file.assets with
  | error e0 =>
    have hc : compileAsset readFs cfg file fs = (some e0, fs) := by
      simp [compileAsset, hr]
    rw [hc]
    constructor
    · intro e he
      simp only at he
      cases he
      refine ⟨rfl, ?_⟩
      rcases readAndCompile_error_names readFs cfg file.assets e0 hr with h1 | h1
      · exact Or.inl h1
      · exact Or.inr (Or.inl h1)
    · intro he
      simp at he
  | ok pieces =>
    cases hcp : cfg.compress with
    | false =>
      have hc : compileAsset readFs cfg file fs =
          (none, alistInsert fs file.path (assembleContents cfg file pieces)) := by
        simp [compileAsset, hr, hcp]
      rw [hc]
      exact ⟨fun e he => by simp at he, fun _ => ⟨assembleContents cfg file pieces, rfl⟩⟩
    | true =>
      cases hf : alistFind? cfg.compressors (pathExtname file.path) with
      | none =>
        have hc : compileAsset readFs cfg file fs =
            (none, alistInsert fs file.path (assembleContents cfg file pieces)) := by
          simp [compileAsset, hr, hcp, hf]
        rw [hc]
        exact ⟨fun e he => by simp at he, fun _ => ⟨assembleContents cfg file pieces, rfl⟩⟩
      | some compressor =>
        cases hcc : compressor (assembleContents cfg file pieces) with
        | error msg =>
          have hc : compileAsset readFs cfg file fs =
              (some (.compressFailed file.path msg), fs) := by
            simp [compileAsset, hr, hcp, hf, hcc]
          rw [hc]
          constructor
          · intro e he
            simp only at he
            cases he
            exact ⟨rfl, Or.inr (Or.inr ⟨msg, rfl⟩)⟩
          · intro he
            simp at he
        | ok compressed =>
          have hc : compileAsset readFs cfg file fs =
              (none, alistInsert fs file.path compressed) := by
            simp [compileAsset, hr, hcp, hf, hcc]
          rw [hc]
          exact ⟨fun e he => by simp at he, fun _ => ⟨compressed, rfl⟩⟩

/-- Closed instance of `compileAsset_failure_atomic`: a compile failure on
`bad.less` leaves the file system untouched and names the file. -/
theorem compileAsset_failure_atomic_witness :
    (compileAsset (fun _ => .ok "src")
        { exCfg with compilers := [(".less",
            { output := ".css", compile := fun _ => .error "boom", extname := ".less" })] }
        { path := "/asset-abc-foo.css",
          assets := [{ name := "bad.less", mtime := 1, hash := "abc" }],
          dependencies := [], options := {} }
        [("existing.txt", "keep")]).2
      = [("existing.txt", "keep")]
    ∧ ((∃ n msg, (CompileError.compileFailed "bad.less" "boom") = .readFailed n msg
          ∧ ∃ a ∈ [({ name := "bad.less", mtime := 1, hash := "abc" } : Asset)], a.name = n)
       ∨ (∃ n msg, (CompileError.compileFailed "bad.less" "boom") = .compileFailed n msg
          ∧ ∃ a ∈ [({ name := "bad.less", mtime := 1, hash := "abc" } : Asset)], a.name = n)
       ∨ (∃ msg, (CompileError.compileFailed "bad.less" "boom")
          = .compressFailed "/asset-abc-foo.css" msg)) :=
  (compileAsset_failure_atomic (fun _ => .ok "src")
      { exCfg with compilers := [(".less",
          { output := ".css", compile := fun _ => .error "boom", extname := ".less" })] }
      { path := "/asset-abc-foo.css",
        assets := [{ name := "bad.less", mtime := 1, hash := "abc" }],
        dependencies := [], options := {} }
      [("existing.txt", "keep")]).1
    (.compileFailed "bad.less" "boom") (by rfl)

/-- C8 (divergence evidence): the manifest guard of `hashAssets` fails on
the JSON value `null`.  A manifest file containing the text `null` parses
successfully and passes `assert.equal(typeof manifest, 'object')` because
`typeof null === 'object'`; the reuse loop's `filename in manifest` then
throws an uncaught `TypeError` at its first iteration — likewise a
`null`-valued entry throws when `manifest[filename].mtime` is read — so
the claim's "never raises" does not hold of the code.  An absent or
unparsable manifest (and any non-object parse result) is indeed treated
as the empty manifest, and on the non-throwing path the stored hash is
reused exactly on an identical-mtime hit, otherwise the file is hashed
afresh with the outdated flag set. -/
theorem hashAssets_null_manifest_raises :
    hashAssets (fun n => "fresh-" ++ n) (some ManifestDoc.nullDoc)
        [("a.js", { name := "a.js", mtime := 5, hash := "" })]
      = .error (.typeError "Cannot use 'in' operator to search for 'a.js' in null")
    ∧ hashAssets (fun n => "fresh-" ++ n)
        (some (ManifestDoc.obj [("a.js", ManifestSlot.nullSlot)]))
        [("a.js", { name := "a.js", mtime := 5, hash := "" })]
      = .error (.typeError "Cannot read properties of null (reading 'mtime')")
    ∧ hashAssets (fun n => "fresh-" ++ n) none
        [("a.js", { name := "a.js", mtime := 5, hash := "" })]
      = hashAssets (fun n => "fresh-" ++ n) (some (ManifestDoc.obj []))
        [("a.js", { name := "a.js", mtime := 5, hash := "" })]
    ∧ hashAssets (fun n => "fresh-" ++ n)
        (some (ManifestDoc.obj
          [("a.js", ManifestSlot.record { mtime := 5, hash := "cached" })]))
        [("a.js", { name := "a.js", mtime := 5, hash := "" }),
         ("b.js", { name := "b.js", mtime := 7, hash := "" })]
      = .ok ([("a.js", { name := "a.js", mtime := 5, hash := "cached" }),
              ("b.js", { name := "b.js", mtime := 7, hash := "fresh-b.js" })],
             true) :=
  ⟨rfl, rfl, rfl, rfl⟩

theorem dropPre_append (l r : List Char) : dropPre l (l ++ r) = some r := by
  induction l with
  | nil => rfl
  | cons x xs ih => simp [dropPre, ih]

theorem takeWhile_all_append (p : Char → Bool) (l : List Char) (c : Char)
    (r : List Char) (hl : ∀ x ∈ l, p x = true) (hc : p c = false) :
    (l ++ c :: r).takeWhile p = l := by
  induction l with
  | nil => simp [List.takeWhile_cons, hc]
  | cons x xs ih =>
    have hx : p x = true := hl x (List.mem_cons_self x xs)
    simp [List.takeWhile_cons, hx,
      ih (fun y hy => hl y (List.mem_cons_of_mem x hy))]

/-- C9: for every dash-free, slash-free `assetPrefix`, non-empty basename
`f` and non-empty hex hash `h`, `getCanonicalPath` inverts
`getCompiledAssetFilename` and the generated filename matches the
compiled-asset pattern; when the prefix itself contains a dash the
round-trip breaks, because `getCanonicalPath` unconditionally drops the
first two dash-separated segments: `my-asset` + hash `ab` + `foo.js` comes
back as `ab-foo.js`, not `foo.js`. -/
theorem compiled_filename_roundtrip (P f hs : String)
    (hPd : '-' ∉ P.data) (hPs : '/' ∉ P.data) (hfs : '/' ∉ f.data)
    (hfne : f.data ≠ []) (hhne : hs.data ≠ [])
    (hhex : ∀ c ∈ hs.data, isHexChar c = true) :
    getCanonicalPath (getCompiledAssetFilename P f hs) = f
    ∧ isCompiledAsset P (getCompiledAssetFilename P f hs) = true
    ∧ getCanonicalPath (getCompiledAssetFilename "my-asset" "foo.js" "ab")
        = "ab-foo.js"
    ∧ getCanonicalPath (getCompiledAssetFilename "my-asset" "foo.js" "ab")
        ≠ "foo.js" := by
  have hdash_h : '-' ∉ hs.data := fun hm => absurd (hhex '-' hm) (by decide)
  have hsl_h : '/' ∉ hs.data := fun hm => absurd (hhex '/' hm) (by decide)
  have hde : ('-' : Char) ≠ '/' := by decide
  have filenameData : (getCompiledAssetFilename P f hs).data
      = P.data ++ '-' :: (hs.data ++ '-' :: f.data) := by
    simp [getCompiledAssetFilename, String.data_append]
  have hnoslash : '/' ∉ (getCompiledAssetFilename P f hs).data := by
    rw [filenameData]
    simp only [List.mem_append, List.mem_cons]
    rintro (h1 | h1 | h1 | h1 | h1)
    · exact hPs h1
    · exact hde h1.symm
    · exact hsl_h h1
    · exact hde h1.symm
    · exact hfs h1
  have hsplitslash : splitChar '/' (getCompiledAssetFilename P f hs).data
      = [(getCompiledAssetFilename P f hs).data] :=
    splitChar_of_not_contains _ _ hnoslash
  have hbase : basenameChars (getCompiledAssetFilename P f hs).data
      = (getCompiledAssetFilename P f hs).data := by
    simp [basenameChars, hsplitslash]
  have hsplitdash : splitChar '-' (getCompiledAssetFilename P f hs).data
      = P.data :: hs.data :: splitChar '-' f.data := by
    rw [filenameData, splitChar_append '-' P.data _ hPd,
      splitChar_append '-' hs.data _ hdash_h]
  have hdir : pathDirname (getCompiledAssetFilename P f hs) = "." := by
    simp [pathDirname, hsplitslash]
  have hmkf : String.mk f.data = f := rfl
  have hfne' : f ≠ "" := by
    intro hf
    apply hfne
    rw [hf]
  refine ⟨?_, ?_, rfl, by decide⟩
  · unfold getCanonicalPath
    rw [hdir, hbase, hsplitdash]
    simp only [List.drop_succ_cons, List.drop_zero]
    rw [joinChar_splitChar '-' f.data, hmkf]
    simp [pathJoin, hfne']
  · unfold isCompiledAsset
    rw [hbase, filenameData]
    have : P.data ++ '-' :: (hs.data ++ '-' :: f.data)
        = (P.data ++ ['-']) ++ (hs.data ++ '-' :: f.data) := by simp
    rw [this, dropPre_append]
    simp only []
    rw [takeWhile_all_append isHexChar hs.data '-' f.data hhex (by decide)]
    have hne : hs.data.isEmpty = false := by
      cases hd : hs.data with
      | nil => exact absurd hd hhne
      | cons x xs => rfl
    rw [List.drop_left]
    simp [hne]

/-- Closed instance of `compiled_filename_roundtrip` at prefix `asset`,
basename `foo.js`, hash `abc`. -/
theorem compiled_filename_roundtrip_witness :
    getCanonicalPath (getCompiledAssetFilename "asset" "foo.js" "abc") = "foo.js"
    ∧ isCompiledAsset "asset" (getCompiledAssetFilename "asset" "foo.js" "abc")
        = true :=
  ⟨(compiled_filename_roundtrip "asset" "foo.js" "abc" (by decide) (by decide)
      (by decide) (by decide) (by decide) (by decide)).1,
   (compiled_filename_roundtrip "asset" "foo.js" "abc" (by decide) (by decide)
      (by decide) (by decide) (by decide) (by decide)).2.1⟩

theorem filter_not_contains_self (a : List (String × String)) :
    a.filter (fun p => !(alistContains a p.1)) = [] := by
  rw [List.filter_eq_nil_iff]
  intro p hp
  simp [alistContains, alistFind?_isSome_of_mem a p hp]

theorem mergeAttrs_self (a : List (String × String)) : mergeAttrs a a = a := by
  unfold mergeAttrs
  rw [filter_not_contains_self, List.append_nil]

theorem mergeAttrs_absorb (a d : List (String × String)) :
    mergeAttrs a (mergeAttrs a d) = mergeAttrs a d := by
  unfold mergeAttrs
  rw [List.filter_append, filter_not_contains_self, List.nil_append,
    List.filter_filter]
  simp

theorem mergeDefaults_self (o : AssetOptions) : mergeDefaults o o = o := by
  obtain ⟨i, d, p, a⟩ := o
  cases i <;> cases d <;> cases p <;> cases a <;>
    simp [mergeDefaults, mergeAttrs_self]

theorem mergeDefaults_absorb (o p : AssetOptions) :
    mergeDefaults o (mergeDefaults o p) = mergeDefaults o p := by
  obtain ⟨i1, d1, p1, a1⟩ := o
  obtain ⟨i2, d2, p2, a2⟩ := p
  cases i1 <;> cases d1 <;> cases p1 <;> cases a1 <;>
    cases i2 <;> cases d2 <;> cases p2 <;> cases a2 <;>
      simp [mergeDefaults, mergeAttrs_absorb, mergeAttrs_self]

theorem assetPathBody_options (env : Env) (m : Manager) (id0 : String)
    (opts : AssetOptions) :
    ((assetPathBody env m id0 opts).2.1).options = m.options
    ∧ ((assetPathBody env m id0 opts).2.1).assets = m.assets := by
  cases hr : resolveAsset env m.options m.assets id0 opts with
  | error e => simp [assetPathBody, hr]
  | ok r => simp [assetPathBody, hr]

theorem assetPathBody_fst (env : Env) (m : Manager) (id0 : String)
    (opts : AssetOptions) :
    (assetPathBody env m id0 opts).1 =
      (match resolveAsset env m.options m.assets id0 opts with
       | .error _ => ""
       | .ok r => r.path) := by
  cases hr : resolveAsset env m.options m.assets id0 opts with
  | error e => simp [assetPathBody, hr]
  | ok r => simp [assetPathBody, hr]

theorem assetPathBody_state_error (env : Env) (m : Manager) (id0 : String)
    (opts : AssetOptions) (e : String)
    (h : resolveAsset env m.options m.assets id0 opts = .error e) :
    (assetPathBody env m id0 opts).2.1 = m := by
  simp [assetPathBody, h]

theorem assetPathBody_pending (env : Env) (m : Manager) (id0 : String)
    (opts : AssetOptions) (r : Resolved)
    (h : resolveAsset env m.options m.assets id0 opts = .ok r) :
    ((assetPathBody env m id0 opts).2.1).pendingAssets
      = alistInsert m.pendingAssets id0
          { path := r.path, assets := r.assets, dependencies := r.dependencies,
            options := opts } := by
  simp [assetPathBody, h]

/-- C6: resolution is additive and idempotent.  When a pending entry exists
for the (lowercased, compiler-remapped) identifier and `force` is unset,
`assetPath` re-resolves the body with the new options merged over the stored
options (new values win, `mergeDefaults`); consequently calling `assetPath`
twice with the same identifier and options yields the identical output path
both times.  The hypothesis states that lowercase-plus-remap is stable on
this identifier, which holds for every configuration whose compiler output
extensions are themselves lowercase non-source extensions. -/
theorem assetPath_idempotent (env : Env) (m : Manager) (identifier : String)
    (opts : AssetOptions)
    (hstable : remapIdentifier m.options.compilers
        (strLower (remapIdentifier m.options.compilers (strLower identifier)))
      = remapIdentifier m.options.compilers (strLower identifier)) :
    (∀ entry, alistFind? m.pendingAssets
        (remapIdentifier m.options.compilers (strLower identifier)) = some entry →
      assetPath env m identifier opts false
        = assetPathBody env m
            (remapIdentifier m.options.compilers
              (strLower (remapIdentifier m.options.compilers (strLower identifier))))
            (mergeDefaults opts entry.options))
    ∧ (assetPath env (assetPath env m identifier opts false).2.1
        identifier opts false).1
      = (assetPath env m identifier opts false).1 := by
  constructor
  · intro entry he
    simp [assetPath, he]
  · cases hp : alistFind? m.pendingAssets
        (remapIdentifier m.options.compilers (strLower identifier)) with
    | none =>
      have h1 : assetPath env m identifier opts false
          = assetPathBody env m
              (remapIdentifier m.options.compilers (strLower identifier)) opts := by
        simp [assetPath, hp]
      cases hr : resolveAsset env m.options m.assets
          (remapIdentifier m.options.compilers (strLower identifier)) opts with
      | error e =>
        have hm1 : (assetPathBody env m
            (remapIdentifier m.options.compilers (strLower identifier)) opts).2.1
            = m := assetPathBody_state_error env m _ opts e hr
        rw [h1, hm1, h1]
      | ok r =>
        have hopt := assetPathBody_options env m
          (remapIdentifier m.options.compilers (strLower identifier)) opts
        have hpend := assetPathBody_pending env m
          (remapIdentifier m.options.compilers (strLower identifier)) opts r hr
        rw [h1]
        have h2 : assetPath env ((assetPathBody env m
              (remapIdentifier m.options.compilers (strLower identifier)) opts).2.1)
            identifier opts false
            = assetPathBody env ((assetPathBody env m
                (remapIdentifier m.options.compilers (strLower identifier)) opts).2.1)
              (remapIdentifier m.options.compilers (strLower identifier))
              (mergeDefaults opts opts) := by
          simp [assetPath, hopt.1, hpend, alistFind?_insert_self, hstable]
        rw [h2, mergeDefaults_self, assetPathBody_fst, assetPathBody_fst,
          hopt.1, hopt.2]
    | some entry =>
      have h1 : assetPath env m identifier opts false
          = assetPathBody env m
              (remapIdentifier m.options.compilers (strLower identifier))
              (mergeDefaults opts entry.options) := by
        simp [assetPath, hp, hstable]
      cases hr : resolveAsset env m.options m.assets
          (remapIdentifier m.options.compilers (strLower identifier))
          (mergeDefaults opts entry.options) with
      | error e =>
        have hm1 : (assetPathBody env m
            (remapIdentifier m.options.compilers (strLower identifier))
            (mergeDefaults opts entry.options)).2.1
            = m := assetPathBody_state_error env m _ _ e hr
        rw [h1, hm1, h1]
      | ok r =>
        have hopt := assetPathBody_options env m
          (remapIdentifier m.options.compilers (strLower identifier))
          (mergeDefaults opts entry.options)
        have hpend := assetPathBody_pending env m
          (remapIdentifier m.options.compilers (strLower identifier))
          (mergeDefaults opts entry.options) r hr
        rw [h1]
        have h2 : assetPath env ((assetPathBody env m
              (remapIdentifier m.options.compilers (strLower identifier))
              (mergeDefaults opts entry.options)).2.1)
            identifier opts false
            = assetPathBody env ((assetPathBody env m
                (remapIdentifier m.options.compilers (strLower identifier))
                (mergeDefaults opts entry.options)).2.1)
              (remapIdentifier m.options.compilers (strLower identifier))
              (mergeDefaults opts (mergeDefaults opts entry.options)) := by
          simp [assetPath, hopt.1, hpend, alistFind?_insert_self, hstable]
        rw [h2, mergeDefaults_absorb, assetPathBody_fst, assetPathBody_fst,
          hopt.1, hopt.2]

/-- Closed instance of `assetPath_idempotent`: resolving `foo.less` twice
over the fixture manager yields the same output path both times. -/
theorem assetPath_idempotent_witness :
    (assetPath exEnv (assetPath exEnv exManager "foo.less" {} false).2.1
        "foo.less" {} false).1
      = (assetPath exEnv exManager "foo.less" {} false).1 :=
  (assetPath_idempotent exEnv exManager "foo.less" {} (by rfl)).2

theorem eq_empty_of_data_nil (s : String) (h : s.data = []) : s = "" := by
  have hs : s = String.mk s.data := rfl
  rw [hs, h]

theorem append_ne_empty_right (a b : String) (hb : b ≠ "") : a ++ b ≠ "" := by
  intro he
  apply hb
  apply eq_empty_of_data_nil
  have hd := congrArg String.data he
  rw [String.data_append] at hd
  exact (List.append_eq_nil.mp hd).2

theorem append_ne_empty_left (a b : String) (ha : a ≠ "") : a ++ b ≠ "" := by
  intro he
  apply ha
  apply eq_empty_of_data_nil
  have hd := congrArg String.data he
  rw [String.data_append] at hd
  exact (List.append_eq_nil.mp hd).1

theorem getCompiledAssetFilename_ne_empty (P f hs : String) :
    getCompiledAssetFilename P f hs ≠ "" := by
  unfold getCompiledAssetFilename
  apply append_ne_empty_left
  apply append_ne_empty_right
  intro he
  have := congrArg String.data he
  simp at this

theorem pathJoin_ne_empty (a b : String) (hb : b ≠ "") : pathJoin a b ≠ "" := by
  unfold pathJoin
  by_cases h1 : a = "" ∨ a = "."
  · simp only [h1, if_true]
    by_cases h2 : b = ""
    · exact absurd h2 hb
    · simp only [h2, if_false]
      exact hb
  · simp only [h1, if_false]
    by_cases h2 : b = ""
    · exact absurd h2 hb
    · simp only [h2, if_false]
      by_cases h3 : strEndsWith a "/" = true
      · simp only [h3, if_true]
        exact append_ne_empty_right a b hb
      · simp only [h3, if_false]
        exact append_ne_empty_right _ b hb

theorem resolveAsset_path_ne_empty (env : Env) (cfg : Config)
    (assets : List (String × Asset)) (identifier : String) (opts : AssetOptions)
    (r : Resolved) (h : resolveAsset env cfg assets identifier opts = .ok r) :
    r.path ≠ "" := by
  have hs := resolveAsset_ok_shape env cfg assets identifier opts r h
  rw [congrArg Resolved.path hs]
  show pathJoin cfg.servePrefix
      (pathJoin (if strContains identifier '/' then pathDirname identifier else "")
        (getCompiledAssetFilename cfg.assetPrefix (pathBasename identifier)
          (strTake (env.hashString
            (joinStr ":" ((r.assets ++ r.dependencies).map Asset.hash)))
            cfg.hashLength))) ≠ ""
  apply pathJoin_ne_empty
  apply pathJoin_ne_empty
  exact getCompiledAssetFilename_ne_empty _ _ _

theorem assetPathBody_empty_iff (env : Env) (m : Manager) (id0 : String)
    (opts : AssetOptions) :
    ((assetPathBody env m id0 opts).1 = ""
      ↔ (assetPathBody env m id0 opts).2.2 ≠ []) := by
  cases hr : resolveAsset env m.options m.assets id0 opts with
  | error e => simp [assetPathBody, hr]
  | ok r =>
    simp [assetPathBody, hr]
    exact resolveAsset_path_ne_empty env m.options m.assets id0 opts r hr

theorem assetPath_empty_iff (env : Env) (m : Manager) (identifier : String)
    (opts : AssetOptions) (force : Bool) :
    ((assetPath env m identifier opts force).1 = ""
      ↔ (assetPath env m identifier opts force).2.2 ≠ []) := by
  simp only [assetPath]
  cases force with
  | true =>
    simp only [if_true]
    exact assetPathBody_empty_iff env m _ opts
  | false =>
    simp only [Bool.false_eq_true, if_false]
    cases hp : alistFind? m.pendingAssets
        (remapIdentifier m.options.compilers (strLower identifier)) with
    | none => exact assetPathBody_empty_iff env m _ opts
    | some entry => exact assetPathBody_empty_iff env m _ _

theorem assetUrlBody_empty_iff (env : Env) (m : Manager) (id0 : String)
    (opts : AssetOptions) :
    ((assetUrlBody env m id0 opts).1 = ""
      ↔ (assetUrlBody env m id0 opts).2.2 ≠ []) := by
  have hiff := assetPath_empty_iff env m id0 opts false
  unfold assetUrlBody
  cases hap : assetPath env m id0 opts false with
  | mk url rest =>
    cases rest with
    | mk m1 errs =>
      rw [hap] at hiff
      simp only at hiff
      by_cases hu : url = ""
      · simp only [hu, if_pos rfl]
        simpa using hiff.mp hu
      · simp only [if_neg hu]
        have herrs : errs = [] := by
          by_cases he : errs = []
          · exact he
          · exact absurd (hiff.mpr he) hu
        by_cases hp : (if m.options.urlPrefix ≠ "" then m.options.urlPrefix
            else opts.prefixOpt.getD "") = ""
        · simp [hp, hu, herrs]
        · simp only [hp, if_false, herrs]
          constructor
          · intro hcontra
            exact absurd hcontra (append_ne_empty_right _ url hu)
          · intro hcontra
            simp at hcontra

theorem assetUrl_empty_iff (env : Env) (m : Manager) (identifier : String)
    (opts : AssetOptions) (force : Bool) :
    ((assetUrl env m identifier opts force).1 = ""
      ↔ (assetUrl env m identifier opts force).2.2 ≠ []) := by
  simp only [assetUrl]
  cases force with
  | true =>
    simp only [if_true]
    exact assetUrlBody_empty_iff env m _ opts
  | false =>
    simp only [Bool.false_eq_true, if_false]
    cases hp : alistFind? m.pendingAssets (strLower identifier) with
    | none => exact assetUrlBody_empty_iff env m _ opts
    | some entry => exact assetUrlBody_empty_iff env m _ _

theorem assetTag_swallow (env : Env) (m : Manager) (id0 : String)
    (opts : AssetOptions) (hnotag : alistFind? m.options.tags "" = none) :
    (assetTag env m id0 opts).2.2 ≠ [] → (assetTag env m id0 opts).1 = "" := by
  have hiff := assetUrl_empty_iff env m id0 opts false
  unfold assetTag
  cases hap : assetUrl env m id0 opts false with
  | mk url rest =>
    cases rest with
    | mk m1 errs =>
      rw [hap] at hiff
      simp only at hiff ⊢
      by_cases hu : url = ""
      · subst hu
        have hext : pathExtname "" = "" := rfl
        rw [hext, hnotag]
        intro _
        rfl
      · have herrs : errs = [] := by
          by_cases he : errs = []
          · exact he
          · exact absurd (hiff.mpr he) hu
        cases ht : alistFind? m.options.tags (pathExtname url) with
        | none =>
          intro _
          rfl
        | some fmt =>
          intro hcontra
          simp only at hcontra
          rw [herrs] at hcontra
          simp at hcontra

theorem assetCore_swallow (env : Env) (fuel : Nat) (m : Manager) (id0 : String)
    (opts : AssetOptions) (force : Bool)
    (hsb : m.options.separateBundles = false)
    (hnotag : alistFind? m.options.tags "" = none) :
    (assetCore env (fuel + 2) m id0 opts force).2.2 ≠ [] →
    (assetCore env (fuel + 2) m id0 opts force).1 = "" := by
  show (assetCore env ((fuel + 1) + 1) m id0 opts force).2.2 ≠ [] →
    (assetCore env ((fuel + 1) + 1) m id0 opts force).1 = ""
  rw [assetCore]
  by_cases hc : force = false ∧ (alistFind? m.pendingAssets id0).isSome = true
  · rw [if_pos hc]
    cases hp : alistFind? m.pendingAssets id0 with
    | none =>
      rw [hp] at hc
      simp at hc
    | some entry =>
      show (assetCore env (fuel + 1) m id0
            (mergeDefaults opts entry.options) true).2.2 ≠ [] →
          (assetCore env (fuel + 1) m id0
            (mergeDefaults opts entry.options) true).1 = ""
      rw [assetCore]
      have hc2 : ¬(true = false ∧ (alistFind? m.pendingAssets id0).isSome = true) := by
        simp
      rw [if_neg hc2, if_neg (by simp [hsb])]
      exact assetTag_swallow env m id0 _ hnotag
  · rw [if_neg hc, if_neg (by simp [hsb])]
    exact assetTag_swallow env m id0 opts hnotag

/-- C4: every resolution-time configuration failure — a glob matching zero
files, an empty deduplicated file list, a constituent or dependency file
absent after compiler fallback, or a missing tag formatter — makes the
public call emit an `error` event and return the empty string: `assetPath`
and `assetUrl` return the empty string exactly when they emitted an error,
and `asset` returns the empty string whenever it emitted one.  All three
are total Lean functions, so no call can throw. -/
theorem resolution_errors_swallowed (env : Env) (m : Manager)
    (identifier : String) (opts : AssetOptions) (force : Bool)
    (hsb : m.options.separateBundles = false)
    (hnotag : alistFind? m.options.tags "" = none) :
    ((assetPath env m identifier opts force).1 = ""
      ↔ (assetPath env m identifier opts force).2.2 ≠ [])
    ∧ ((assetUrl env m identifier opts force).1 = ""
      ↔ (assetUrl env m identifier opts force).2.2 ≠ [])
    ∧ ((asset env m identifier opts).2.2 ≠ []
      → (asset env m identifier opts).1 = "") := by
  refine ⟨assetPath_empty_iff env m identifier opts force,
    assetUrl_empty_iff env m identifier opts force, ?_⟩
  unfold asset
  exact assetCore_swallow env m.assets.length m identifier opts false hsb hnotag

/-- Closed instance of `resolution_errors_swallowed`: requesting the
missing `nosuch.txt` over the empty fixture manager yields the empty string
together with emitted errors, across all three public calls. -/
theorem resolution_errors_swallowed_witness :
    ((assetPath exEnv exManagerEmpty "nosuch.txt" {} false).1 = ""
      ↔ (assetPath exEnv exManagerEmpty "nosuch.txt" {} false).2.2 ≠ [])
    ∧ ((assetUrl exEnv exManagerEmpty "nosuch.txt" {} false).1 = ""
      ↔ (assetUrl exEnv exManagerEmpty "nosuch.txt" {} false).2.2 ≠ [])
    ∧ ((asset exEnv exManagerEmpty "nosuch.txt" {}).2.2 ≠ []
      → (asset exEnv exManagerEmpty "nosuch.txt" {}).1 = "") :=
  resolution_errors_swallowed exEnv exManagerEmpty "nosuch.txt" {} false
    (by rfl) (by rfl)

/-- A state with one compilation in flight for path `p`, triggered by
request `0`. -/
def srvEx : SrvState :=
  { compilingNow := [("p", [])], running := [("p", 0)], delivered := [] }

/-- C2: in the request-serializing middlewares installed by `init`,
(1) in every reachable state a key exists in the in-flight registry
`compilingNow` exactly when a compilation for that canonical path is
currently running; (2) a request arriving while its path is compiling is a
legal step that appends it to that path's wait queue and starts no second
pipeline invocation (`running` is unchanged); and (3) completion is a legal
step that deletes the registry entry and delivers the same outcome to the
triggering request and every queued request at once — all-success or
all-failure, never mixed. -/
theorem request_serializer_invariant :
    (∀ s, SrvReachable s → ∀ c,
      ((alistFind? s.compilingNow c).isSome = true ↔ ∃ r, (c, r) ∈ s.running))
    ∧ (∀ s c r q, alistFind? s.compilingNow c = some q →
        SrvStep s { s with compilingNow := alistInsert s.compilingNow c (q ++ [r]) }
        ∧ ({ s with compilingNow := alistInsert s.compilingNow c (q ++ [r]) }
            : SrvState).running = s.running
        ∧ alistFind? (alistInsert s.compilingNow c (q ++ [r])) c = some (q ++ [r]))
    ∧ (∀ s c r o q, (c, r) ∈ s.running → alistFind? s.compilingNow c = some q →
        SrvStep s { compilingNow := alistErase s.compilingNow c
                    running := s.running.filter (fun p => p.1 ≠ c)
                    delivered := s.delivered ++ (r, o) :: q.map (fun w => (w, o)) }
        ∧ alistFind? (alistErase s.compilingNow c) c = none
        ∧ (s.delivered ++ (r, o) :: q.map (fun w => (w, o))).drop s.delivered.length
            = (r, o) :: q.map (fun w => (w, o))) := by
  refine ⟨?_, ?_, ?_⟩
  · intro s hs
    induction hs with
    | start =>
      intro c
      simp [SrvState.start, alistFind?]
    | step s t hs hst ih =>
      cases hst with
      | startCompile canonical r hnotin =>
        intro c
        by_cases hc : c = canonical
        · subst hc
          simp [alistFind?_insert_self]
        · have hne : c ≠ canonical := hc
          simp only [alistFind?_insert_ne s.compilingNow canonical c [] hne]
          constructor
          · intro hsome
            obtain ⟨r2, hr2⟩ := (ih c).mp hsome
            exact ⟨r2, List.mem_cons_of_mem _ hr2⟩
          · rintro ⟨r2, hr2⟩
            rcases List.mem_cons.mp hr2 with h1 | h1
            · exact absurd (congrArg Prod.fst h1) hne
            · exact (ih c).mpr ⟨r2, h1⟩
      | queueRequest canonical r q hin =>
        intro c
        by_cases hc : c = canonical
        · subst hc
          simp only [alistFind?_insert_self, Option.isSome_some]
          have := (ih c).mp (by simp [hin])
          simpa using this
        · simp only [alistFind?_insert_ne s.compilingNow canonical c (q ++ [r]) hc]
          exact ih c
      | complete canonical r o q hrun hq =>
        intro c
        by_cases hc : c = canonical
        · subst hc
          simp only [alistFind?_erase_self, Option.isSome_none]
          constructor
          · intro hfalse
            simp at hfalse
          · rintro ⟨r2, hr2⟩
            have := (List.mem_filter.mp hr2).2
            simp at this
        · simp only [alistFind?_erase_ne s.compilingNow canonical c hc]
          constructor
          · intro hsome
            obtain ⟨r2, hr2⟩ := (ih c).mp hsome
            refine ⟨r2, List.mem_filter.mpr ⟨hr2, ?_⟩⟩
            simp [hc]
          · rintro ⟨r2, hr2⟩
            exact (ih c).mpr ⟨r2, (List.mem_filter.mp hr2).1⟩
  · intro s c r q hq
    exact ⟨SrvStep.queueRequest s c r q hq, rfl,
      alistFind?_insert_self s.compilingNow c (q ++ [r])⟩
  · intro s c r o q hrun hq
    refine ⟨SrvStep.complete s c r o q hrun hq,
      alistFind?_erase_self s.compilingNow c, ?_⟩
    rw [List.drop_left]

/-- Closed instance of `request_serializer_invariant`: the empty initial
state satisfies the registry invariant, and from a state with one
compilation in flight for `p`, queueing request `1` is a step that leaves
`running` unchanged. -/
theorem request_serializer_invariant_witness :
    ((alistFind? SrvState.start.compilingNow "p").isSome = true
      ↔ ∃ r, ("p", r) ∈ SrvState.start.running)
    ∧ SrvStep srvEx
        { srvEx with compilingNow := alistInsert srvEx.compilingNow "p" ([] ++ [1]) }
    ∧ ({ srvEx with compilingNow := alistInsert srvEx.compilingNow "p" ([] ++ [1]) }
        : SrvState).running = srvEx.running :=
  ⟨request_serializer_invariant.1 SrvState.start SrvReachable.start "p",
   (request_serializer_invariant.2.1 srvEx "p" 1 [] (by rfl)).1,
   (request_serializer_invariant.2.1 srvEx "p" 1 [] (by rfl)).2.1⟩

/-- Closed instance of `compiler_fallback_spec`: the fallback for the
missing `foo.css` finds `foo.less` with nothing tried before it. -/
theorem compiler_fallback_spec_witness :
    findFallback exAssets "foo" "foo.css" (reverseCompilerIndex exCfg.compilers ".css")
      = (some { name := "foo.less", mtime := 1, hash := "abc" }, []) := by
  rw [compiler_fallback_spec.1 exAssets "foo" "foo.css"
      (reverseCompilerIndex exCfg.compilers ".css")]
  rfl

end Ferguson
